import Mathlib

/-!
A verification development for the `Sender.js` serial bootloader sender
(of the sixty5o2 project).  The sender splits a payload into 8-byte
chunks, zero-pads the final chunk, appends a 1-byte checksum, base64
encodes the 9-byte framed block, and drives a stop-and-wait
acknowledgment loop over a serial link: `k` acknowledges a chunk,
`f` requests a retransmission.

Bytes are modelled as `Nat` (Node `Buffer` entries are in `[0,255]`);
buffers are `List Nat`; the emitted base64 text is `List Char`.
-/

namespace Sender

/-- Models `Buffer.concat(parts, total)`: the parts are concatenated,
the result truncated to `total` bytes, and zero-filled up to `total`
bytes when the parts hold fewer. -/
def concatTotal (parts : List (List Nat)) (total : Nat) : List Nat :=
  (parts.flatten ++ List.replicate total 0).take total

/-- `inGroupsOf` from Sender.js: the JS loop runs `i` over
`0, size, 2*size, ...` while `i < ary.length` and pushes
`ary.slice(i, i + size)`.  An empty input array yields the empty result
(the loop body never runs).  The JS loop would not terminate for
`size = 0` on a nonempty array; the only call site uses `size = 8`. -/
def inGroupsOf (ary : List Nat) (size : Nat) : List (List Nat) :=
  if ary = [] ∨ size = 0 then []
  else ary.take size :: inGroupsOf (ary.drop size) size
termination_by ary.length
decreasing_by
  rename_i h
  push_neg at h
  simp only [List.length_drop]
  have h1 : ary.length ≠ 0 := fun hl => h.1 (List.eq_nil_of_length_eq_zero hl)
  omega

/-- Models `element.toString(2)` from `checkSum`: the binary digit
string of a nonnegative integer, most significant digit first
(`Nat.digits 2` is least significant first, hence the reverse).
JS renders `0` as the one-character string "0"; in the model
`binaryDigits 0 = []` and the read below defaults to digit 0,
matching. -/
def binaryDigits (n : Nat) : List Nat :=
  (Nat.digits 2 n).reverse

/-- Models `parseInt(bin[bin.length - 1])` from `checkSum`:
the final (least significant) character of the binary string. -/
def lastBit (n : Nat) : Nat :=
  (binaryDigits n).getLastD 0

/-- `checkSum` from Sender.js: `cs = 0`, then for each byte
`cs = (cs << 1) + parseInt(bin[bin.length - 1])` where `bin` is the
byte's binary string.  The JS `<<` is a 32-bit shift; for the at most
8-byte inputs used by the sender `cs` stays below 256, so plain
multiplication by 2 is exact. -/
def checkSum (data : List Nat) : Nat :=
  data.foldl (fun cs element => cs * 2 + lastBit element) 0

/-- `appendChecksum` from Sender.js:
`Buffer.concat([buf, Buffer.alloc(1, [checkSum(buf)])], 9)`.
`Buffer.alloc(1, v)` stores the low byte of `v`, hence the `% 256`. -/
def appendChecksum (buf : List Nat) : List Nat :=
  concatTotal [buf, [checkSum buf % 256]] 9

/-- `appendPadding` from Sender.js: a buffer of length 8 is returned
unchanged, otherwise `Buffer.concat([buf, Buffer.alloc(8 - buf.length, 0)], 8)`.
(For a buffer longer than 8 the JS `Buffer.alloc` of a negative size
would throw; every call site passes a chunk of at most 8 bytes.) -/
def appendPadding (buf : List Nat) : List Nat :=
  if buf.length = 8 then buf
  else concatTotal [buf, List.replicate (8 - buf.length) 0] 8

-- basic framer lemmas

theorem lastBit_eq_mod_two (n : Nat) : lastBit n = n % 2 := by
  cases n with
  | zero => simp [lastBit, binaryDigits]
  | succ m =>
    unfold lastBit binaryDigits
    rw [Nat.digits_def' (by norm_num : 1 < 2) (Nat.succ_pos m), List.reverse_cons,
      List.getLastD_concat]

theorem checkSum_eq_fold (data : List Nat) :
    checkSum data = data.foldl (fun acc b => acc * 2 + b % 2) 0 := by
  unfold checkSum
  congr 1
  funext cs b
  rw [lastBit_eq_mod_two]

theorem checkSum_lt_two_pow (data : List Nat) :
    checkSum data < 2 ^ data.length := by
  rw [checkSum_eq_fold]
  suffices h : ∀ (l : List Nat) (acc : Nat),
      l.foldl (fun acc b => acc * 2 + b % 2) acc < (acc + 1) * 2 ^ l.length by
    have := h data 0
    simpa using this
  intro l
  induction l with
  | nil => intro acc; simp
  | cons b t ih =>
    intro acc
    have hb : b % 2 ≤ 1 := Nat.le_of_lt_succ (Nat.mod_lt b (by norm_num))
    calc (b :: t).foldl (fun acc b => acc * 2 + b % 2) acc
        = t.foldl (fun acc b => acc * 2 + b % 2) (acc * 2 + b % 2) := rfl
      _ < (acc * 2 + b % 2 + 1) * 2 ^ t.length := ih _
      _ ≤ (acc + 1) * 2 ^ (b :: t).length := by
          simp only [List.length_cons, pow_succ]
          nlinarith [Nat.pos_pow_of_pos t.length (show 0 < 2 by norm_num)]

theorem appendPadding_of_lt (buf : List Nat) (h : buf.length < 8) :
    appendPadding buf = buf ++ List.replicate (8 - buf.length) 0 := by
  unfold appendPadding concatTotal
  rw [if_neg (by omega)]
  simp only [List.flatten_cons, List.flatten_nil, List.append_nil]
  rw [List.take_append_of_le_length (by simp; omega)]
  rw [List.take_of_length_le (by simp; omega)]

theorem appendPadding_of_eq (buf : List Nat) (h : buf.length = 8) :
    appendPadding buf = buf := by
  unfold appendPadding
  rw [if_pos h]

theorem appendPadding_length (buf : List Nat) (h : buf.length ≤ 8) :
    (appendPadding buf).length = 8 := by
  rcases lt_or_eq_of_le h with h' | h'
  · rw [appendPadding_of_lt buf h']
    simp
    omega
  · rw [appendPadding_of_eq buf h', h']

theorem appendChecksum_of_length_eight (buf : List Nat) (h : buf.length = 8) :
    appendChecksum buf = buf ++ [checkSum buf % 256] := by
  unfold appendChecksum concatTotal
  simp only [List.flatten_cons, List.flatten_nil, List.append_nil]
  rw [List.take_append_of_le_length (by simp; omega)]
  rw [List.take_of_length_le (by simp; omega)]

-- chunking lemmas

theorem inGroupsOf_nil (size : Nat) : inGroupsOf [] size = [] := by
  rw [inGroupsOf]
  simp

theorem inGroupsOf_flatten (ary : List Nat) : (inGroupsOf ary 8).flatten = ary := by
  rw [inGroupsOf]
  split
  · rename_i h
    have hnil : ary = [] := Or.resolve_right h (by norm_num)
    simp [hnil]
  · rename_i h
    push_neg at h
    have hne : ary.length ≠ 0 := fun hl => h.1 (List.eq_nil_of_length_eq_zero hl)
    rw [List.flatten_cons, inGroupsOf_flatten (ary.drop 8), List.take_append_drop]
termination_by ary.length
decreasing_by
  simp only [List.length_drop]
  omega

theorem inGroupsOf_length (ary : List Nat) :
    (inGroupsOf ary 8).length = (ary.length + 7) / 8 := by
  rw [inGroupsOf]
  split
  · rename_i h
    have hnil : ary = [] := Or.resolve_right h (by norm_num)
    simp [hnil]
  · rename_i h
    push_neg at h
    have hne : ary.length ≠ 0 := fun hl => h.1 (List.eq_nil_of_length_eq_zero hl)
    rw [List.length_cons, inGroupsOf_length (ary.drop 8)]
    simp only [List.length_drop]
    omega
termination_by ary.length
decreasing_by
  simp only [List.length_drop]
  omega

theorem inGroupsOf_mem_length (ary : List Nat) (c : List Nat)
    (hc : c ∈ inGroupsOf ary 8) : 1 ≤ c.length ∧ c.length ≤ 8 := by
  rw [inGroupsOf] at hc
  split at hc
  · simp at hc
  · rename_i h
    push_neg at h
    have hne : ary.length ≠ 0 := fun hl => h.1 (List.eq_nil_of_length_eq_zero hl)
    rcases List.mem_cons.mp hc with rfl | hc'
    · simp only [List.length_take]
      omega
    · exact inGroupsOf_mem_length (ary.drop 8) c hc'
termination_by ary.length
decreasing_by
  simp only [List.length_drop]
  omega

theorem inGroupsOf_padded_flatten (ary : List Nat) :
    ∃ k, ((inGroupsOf ary 8).map appendPadding).flatten = ary ++ List.replicate k 0 := by
  rw [inGroupsOf]
  split
  · rename_i h
    have hnil : ary = [] := Or.resolve_right h (by norm_num)
    exact ⟨0, by simp [hnil]⟩
  · rename_i h
    push_neg at h
    have hne : ary.length ≠ 0 := fun hl => h.1 (List.eq_nil_of_length_eq_zero hl)
    by_cases h8 : 8 ≤ ary.length
    · obtain ⟨k, hk⟩ := inGroupsOf_padded_flatten (ary.drop 8)
      refine ⟨k, ?_⟩
      rw [List.map_cons, List.flatten_cons, hk,
        appendPadding_of_eq _ (by simp only [List.length_take]; omega),
        ← List.append_assoc, List.take_append_drop]
    · refine ⟨8 - ary.length, ?_⟩
      have hta : ary.take 8 = ary := List.take_of_length_le (by omega)
      have hda : ary.drop 8 = [] := List.drop_eq_nil_of_le (by omega)
      rw [List.map_cons, List.flatten_cons, hda, inGroupsOf_nil, List.map_nil,
        List.flatten_nil, List.append_nil, hta,
        appendPadding_of_lt _ (by omega)]
termination_by ary.length
decreasing_by
  simp only [List.length_drop]
  omega

theorem inGroupsOf_padded_take (ary : List Nat) :
    (((inGroupsOf ary 8).map appendPadding).flatten).take ary.length = ary := by
  obtain ⟨k, hk⟩ := inGroupsOf_padded_flatten ary
  rw [hk, List.take_append_of_le_length le_rfl, List.take_of_length_le le_rfl]

/-! ## Encoder

`sendChunk` renders the framed block with `data.toString('base64')`.
The Node `Buffer` base64 rendering is the standard RFC 4648 encoding
with the fixed alphabet `A-Z a-z 0-9 + /`; it is modelled here byte for
byte (three input bytes become four alphabet characters; a trailing
group of one or two bytes gets `=` padding, which never occurs for the
9-byte framed blocks the sender produces).  The decoder below is the
standard base64 decoder assumed on the peer. -/

def base64Alphabet : List Char :=
  ['A', 'B', 'C', 'D', 'E', 'F', 'G', 'H', 'I', 'J', 'K', 'L', 'M',
   'N', 'O', 'P', 'Q', 'R', 'S', 'T', 'U', 'V', 'W', 'X', 'Y', 'Z',
   'a', 'b', 'c', 'd', 'e', 'f', 'g', 'h', 'i', 'j', 'k', 'l', 'm',
   'n', 'o', 'p', 'q', 'r', 's', 't', 'u', 'v', 'w', 'x', 'y', 'z',
   '0', '1', '2', '3', '4', '5', '6', '7', '8', '9', '+', '/']

/-- The alphabet character for a 6-bit value. -/
def base64Char (s : Nat) : Char :=
  base64Alphabet.getD s 'A'

/-- Standard base64 encoding of a byte sequence (the semantics of
Node's `buffer.toString('base64')` used in `sendChunk`). -/
def base64Encode : List Nat → List Char
  | b1 :: b2 :: b3 :: rest =>
    base64Char (b1 / 4) :: base64Char (b1 % 4 * 16 + b2 / 16) ::
      base64Char (b2 % 16 * 4 + b3 / 64) :: base64Char (b3 % 64) :: base64Encode rest
  | [b1, b2] =>
    [base64Char (b1 / 4), base64Char (b1 % 4 * 16 + b2 / 16), base64Char (b2 % 16 * 4), '=']
  | [b1] =>
    [base64Char (b1 / 4), base64Char (b1 % 4 * 16), '=', '=']
  | [] => []

/-- Position of a character in the base64 alphabet. -/
def charIndex (c : Char) : Option Nat :=
  base64Alphabet.findIdx? (fun a => a = c)

/-- Standard base64 decoding (the peer's decoder) for unpadded
encodings: four alphabet characters yield three bytes. -/
def base64Decode : List Char → Option (List Nat)
  | [] => some []
  | c1 :: c2 :: c3 :: c4 :: rest =>
    match charIndex c1, charIndex c2, charIndex c3, charIndex c4, base64Decode rest with
    | some s1, some s2, some s3, some s4, some bs =>
      some ((s1 * 4 + s2 / 16) :: (s2 % 16 * 16 + s3 / 4) :: (s3 % 4 * 64 + s4) :: bs)
    | _, _, _, _, _ => none
  | _ => none

/-! ## Response classifier and transfer controller

`establishParser` trims each received line and emits a chunkSuccess
event for exactly `k`, a chunkFailure event for exactly `f`, and only
logs anything else.  The event handlers drive the session:
chunkSuccess runs `sendNextChunk` (advance the `indexManager` cursor
and send, or emit EOF when `increase()` returns null), chunkFailure
runs `repeatChunk` (re-send the chunk at the unchanged cursor), and
EOF runs `quit` (close the connection and exit).  The start event
sends `chunks[0]`. -/

/-- A classified peer response: `k` (chunkSuccess) or `f` (chunkFailure). -/
inductive Response where
  | success : Response
  | failure : Response
deriving DecidableEq

/-- Models JS `String.prototype.trim` (used as `data.toString().trim()`
in `establishParser`): remove leading and trailing whitespace
characters. -/
def trimChars (s : List Char) : List Char :=
  (((s.dropWhile Char.isWhitespace).reverse).dropWhile Char.isWhitespace).reverse

/-- `establishParser` from Sender.js: trim the received line; `k`
emits chunkSuccess, `f` emits chunkFailure, anything else yields no
protocol event (it is only logged). -/
def classify (line : String) : Option Response :=
  let response := trimChars line.data
  if response = ['k'] then some Response.success
  else if response = ['f'] then some Response.failure
  else none

/-- An observable controller action: transmitting the chunk at an
index, or ending the session (`quit` after the EOF event: close the
connection and exit the process). -/
inductive Action where
  | send : Nat → Action
  | eof : Action
deriving DecidableEq

/-- `increase` of `indexManager` from Sender.js: with `max = m - 1`
(a JS number, so `-1` when `m = 0`), `idx >= max` returns null,
otherwise the incremented index. -/
def indexIncrease (count idx : Nat) : Option Nat :=
  if (idx : Int) ≥ (count : Int) - 1 then none else some (idx + 1)

/-- One controller reaction to a classified response, from the current
index: chunkSuccess runs `sendNextChunk` (send at the increased index,
or EOF and quit when `increase()` is null), chunkFailure runs
`repeatChunk` (send at `get()`, the unchanged index).  Returns the
emitted actions and the next state (`none` = process exited). -/
def ctrlStep (count idx : Nat) : Response → List Action × Option Nat
  | Response.success =>
    match indexIncrease count idx with
    | none => ([Action.eof], none)
    | some j => ([Action.send j], some j)
  | Response.failure => ([Action.send idx], some idx)

/-- Runs the controller from a state over a list of classified
responses, collecting the emitted actions.  After `quit` the process
has exited, so further responses produce nothing. -/
def runFrom (count : Nat) : Option Nat → List Response → List Action × Option Nat
  | none, _ => ([], none)
  | some idx, [] => ([], some idx)
  | some idx, r :: rs =>
    let step := ctrlStep count idx r
    let rest := runFrom count step.2 rs
    (step.1 ++ rest.1, rest.2)

/-- A whole session: the start event sends `chunks[0]` (index 0), then
the responses drive the controller from index 0. -/
def runSession (count : Nat) (responses : List Response) : List Action × Option Nat :=
  let rest := runFrom count (Option.some 0) responses
  (Action.send 0 :: rest.1, rest.2)

/-- The controller state (current index, or `none` once exited) after
a list of responses, starting from index 0. -/
def sessionState (count : Nat) (responses : List Response) : Option Nat :=
  (runFrom count (Option.some 0) responses).2

/-- The bytes put on the wire for one chunk by `sendChunk`: pad,
append the checksum, base64 encode. -/
def frameEncode (chunk : List Nat) : List Char :=
  base64Encode (appendChecksum (appendPadding chunk))

/-- The text transmitted by an action: a send transmits the framed,
encoded chunk at its index (`none` when `chunks[idx]` does not
exist); ending the session transmits nothing. -/
def transmission (chunks : List (List Nat)) : Action → Option (List Char)
  | Action.send i => (chunks[i]?).map frameEncode
  | Action.eof => none

-- controller lemmas

theorem indexIncrease_eq (count idx : Nat) :
    indexIncrease count idx = if idx + 1 ≥ count then none else some (idx + 1) := by
  unfold indexIncrease
  split
  · rename_i h1
    rw [if_pos (by omega)]
  · rename_i h1
    rw [if_neg (by omega)]

theorem ctrlStep_failure (count idx : Nat) :
    ctrlStep count idx Response.failure = ([Action.send idx], some idx) := rfl

theorem ctrlStep_success_last (count idx : Nat) (h : count ≤ idx + 1) :
    ctrlStep count idx Response.success = ([Action.eof], none) := by
  unfold ctrlStep
  rw [indexIncrease_eq, if_pos h]

theorem ctrlStep_success_advance (count idx : Nat) (h : idx + 1 < count) :
    ctrlStep count idx Response.success = ([Action.send (idx + 1)], some (idx + 1)) := by
  unfold ctrlStep
  rw [indexIncrease_eq, if_neg (by omega)]

theorem runFrom_none (count : Nat) (rs : List Response) :
    runFrom count none rs = ([], none) := by
  cases rs <;> rfl

theorem runFrom_nil (count idx : Nat) :
    runFrom count (some idx) [] = ([], some idx) := rfl

theorem runFrom_cons (count idx : Nat) (r : Response) (rs : List Response) :
    runFrom count (some idx) (r :: rs) =
      ((ctrlStep count idx r).1 ++ (runFrom count (ctrlStep count idx r).2 rs).1,
        (runFrom count (ctrlStep count idx r).2 rs).2) := rfl

theorem runFrom_append (count : Nat) (s : Option Nat) (l1 l2 : List Response) :
    runFrom count s (l1 ++ l2) =
      ((runFrom count s l1).1 ++ (runFrom count (runFrom count s l1).2 l2).1,
        (runFrom count (runFrom count s l1).2 l2).2) := by
  induction l1 generalizing s with
  | nil =>
    cases s with
    | none => simp [runFrom_none]
    | some idx => simp [runFrom_nil]
  | cons r rs ih =>
    cases s with
    | none => simp [runFrom_none]
    | some idx =>
      rw [List.cons_append, runFrom_cons, runFrom_cons, ih]
      simp [List.append_assoc]

theorem runFrom_failures (count idx n : Nat) :
    runFrom count (some idx) (List.replicate n Response.failure) =
      (List.replicate n (Action.send idx), some idx) := by
  induction n with
  | zero => simp [runFrom_nil]
  | succ m ih =>
    rw [List.replicate_succ, runFrom_cons, ctrlStep_failure, ih]
    simp [List.replicate_succ]

theorem runFrom_successes (count : Nat) :
    ∀ (n idx : Nat), idx + n + 1 = count →
      runFrom count (some idx) (List.replicate (n + 1) Response.success) =
        ((List.range' (idx + 1) n).map Action.send ++ [Action.eof], none) := by
  intro n
  induction n with
  | zero =>
    intro idx h
    rw [List.replicate_succ, List.replicate_zero, runFrom_cons,
      ctrlStep_success_last count idx (by omega)]
    simp [runFrom_none]
  | succ m ih =>
    intro idx h
    rw [List.replicate_succ, runFrom_cons,
      ctrlStep_success_advance count idx (by omega)]
    rw [ih (idx + 1) (by omega)]
    rw [List.range'_succ]
    simp

theorem sessionState_nil (count : Nat) : sessionState count [] = some 0 := rfl

theorem sessionState_append_single (count : Nat) (rs : List Response) (r : Response) :
    sessionState count (rs ++ [r]) =
      (runFrom count (sessionState count rs) [r]).2 := by
  unfold sessionState
  rw [runFrom_append]

theorem sessionState_bound (count : Nat) (rs : List Response) :
    ∀ (idx : Nat), idx + 1 ≤ count →
      ∀ i, (runFrom count (some idx) rs).2 = some i → i + 1 ≤ count := by
  induction rs with
  | nil =>
    intro idx h i hi
    rw [runFrom_nil] at hi
    have := Option.some.inj hi
    omega
  | cons r t ih =>
    intro idx h i hi
    cases r with
    | failure =>
      rw [runFrom_cons, ctrlStep_failure] at hi
      exact ih idx h i hi
    | success =>
      by_cases hc : idx + 1 < count
      · rw [runFrom_cons, ctrlStep_success_advance count idx hc] at hi
        exact ih (idx + 1) (by omega) i hi
      · rw [runFrom_cons, ctrlStep_success_last count idx (by omega),
          runFrom_none] at hi
        simp at hi

-- encoder lemmas

theorem charIndex_base64Char : ∀ s, s < 64 → charIndex (base64Char s) = some s := by
  decide

theorem base64Char_mem : ∀ s, s < 64 → base64Char s ∈ base64Alphabet := by
  decide

theorem base64Alphabet_printable :
    ∀ c ∈ base64Alphabet, 33 ≤ c.toNat ∧ c.toNat ≤ 126 := by
  decide

theorem base64Encode_cons (b1 b2 b3 : Nat) (rest : List Nat) :
    base64Encode (b1 :: b2 :: b3 :: rest) =
      base64Char (b1 / 4) :: base64Char (b1 % 4 * 16 + b2 / 16) ::
        base64Char (b2 % 16 * 4 + b3 / 64) :: base64Char (b3 % 64) ::
          base64Encode rest := rfl

theorem base64Decode_encode_cons (b1 b2 b3 : Nat)
    (h1 : b1 < 256) (h2 : b2 < 256) (h3 : b3 < 256)
    (rest bs : List Nat) (hrest : base64Decode (base64Encode rest) = some bs) :
    base64Decode (base64Encode (b1 :: b2 :: b3 :: rest)) =
      some (b1 :: b2 :: b3 :: bs) := by
  have e1 : charIndex (base64Char (b1 / 4)) = some (b1 / 4) :=
    charIndex_base64Char _ (by omega)
  have e2 : charIndex (base64Char (b1 % 4 * 16 + b2 / 16)) =
      some (b1 % 4 * 16 + b2 / 16) :=
    charIndex_base64Char _ (by omega)
  have e3 : charIndex (base64Char (b2 % 16 * 4 + b3 / 64)) =
      some (b2 % 16 * 4 + b3 / 64) :=
    charIndex_base64Char _ (by omega)
  have e4 : charIndex (base64Char (b3 % 64)) = some (b3 % 64) :=
    charIndex_base64Char _ (by omega)
  rw [base64Encode_cons]
  simp only [base64Decode, e1, e2, e3, e4, hrest]
  have d1 : b1 / 4 * 4 + (b1 % 4 * 16 + b2 / 16) / 16 = b1 := by omega
  have d2 : (b1 % 4 * 16 + b2 / 16) % 16 * 16 + (b2 % 16 * 4 + b3 / 64) / 4 = b2 := by
    omega
  have d3 : (b2 % 16 * 4 + b3 / 64) % 4 * 64 + b3 % 64 = b3 := by omega
  rw [d1, d2, d3]

theorem base64Decode_encode_nil : base64Decode (base64Encode []) = some [] := rfl

-- session state step lemmas

theorem sessionState_snoc_failure (count : Nat) (rs : List Response) (i : Nat)
    (hi : sessionState count rs = some i) :
    sessionState count (rs ++ [Response.failure]) = some i := by
  rw [sessionState_append_single, hi, runFrom_cons, ctrlStep_failure]
  simp [runFrom_nil]

theorem sessionState_snoc_success_advance (count : Nat) (rs : List Response) (i : Nat)
    (hi : sessionState count rs = some i) (hlt : i + 1 < count) :
    sessionState count (rs ++ [Response.success]) = some (i + 1) := by
  rw [sessionState_append_single, hi, runFrom_cons, ctrlStep_success_advance count i hlt]
  simp [runFrom_nil]

theorem sessionState_snoc_success_last (count : Nat) (rs : List Response) (i : Nat)
    (hi : sessionState count rs = some i) (hge : count ≤ i + 1) :
    sessionState count (rs ++ [Response.success]) = none := by
  rw [sessionState_append_single, hi, runFrom_cons, ctrlStep_success_last count i hge]
  simp [runFrom_none]

theorem sessionState_mono (count : Nat) (rs : List Response) (r : Response) (i j : Nat)
    (hi : sessionState count rs = some i)
    (hj : sessionState count (rs ++ [r]) = some j) : i ≤ j := by
  cases r with
  | failure =>
    rw [sessionState_snoc_failure count rs i hi] at hj
    have := Option.some.inj hj
    omega
  | success =>
    by_cases hc : i + 1 < count
    · rw [sessionState_snoc_success_advance count rs i hi hc] at hj
      have := Option.some.inj hj
      omega
    · rw [sessionState_snoc_success_last count rs i hi (by omega)] at hj
      exact absurd hj (by simp)

-- list destructuring helper

theorem exists_nine (l : List Nat) (h : l.length = 9) :
    ∃ b1 b2 b3 b4 b5 b6 b7 b8 b9,
      l = [b1, b2, b3, b4, b5, b6, b7, b8, b9] := by
  rcases l with _ | ⟨b1, l⟩
  · simp at h
  rcases l with _ | ⟨b2, l⟩
  · simp at h
  rcases l with _ | ⟨b3, l⟩
  · simp at h
  rcases l with _ | ⟨b4, l⟩
  · simp at h
  rcases l with _ | ⟨b5, l⟩
  · simp at h
  rcases l with _ | ⟨b6, l⟩
  · simp at h
  rcases l with _ | ⟨b7, l⟩
  · simp at h
  rcases l with _ | ⟨b8, l⟩
  · simp at h
  rcases l with _ | ⟨b9, l⟩
  · simp at h
  have hl : l = [] := by
    simp only [List.length_cons] at h
    exact List.eq_nil_of_length_eq_zero (by omega)
  exact ⟨b1, b2, b3, b4, b5, b6, b7, b8, b9, by rw [hl]⟩

/-! ## The claims -/

/-- Claim C1: for every payload with `count ≥ 1` chunks, on a response
sequence of exactly `count` chunkSuccess events the controller sends
exactly `count` chunks — the indices `0, 1, ..., count - 1`, each
exactly once, in strictly increasing order (the send trace is exactly
`List.range count`) — and then terminates the session (the EOF/quit
action is emitted last and the final state is `none`, the exited
process). -/
theorem claim_C1 (count : Nat) (h : 1 ≤ count) :
    runSession count (List.replicate count Response.success) =
      ((List.range count).map Action.send ++ [Action.eof], none) := by
  obtain ⟨n, rfl⟩ : ∃ n, count = n + 1 := ⟨count - 1, by omega⟩
  unfold runSession
  rw [runFrom_successes (n + 1) n 0 (by omega)]
  rw [List.range_eq_range', List.range'_succ]
  simp

/-- Claim C1 witness: a concrete three-chunk session. -/
theorem claim_C1_witness :
    runSession 3 (List.replicate 3 Response.success) =
      ((List.range 3).map Action.send ++ [Action.eof], none) :=
  claim_C1 3 (by decide)

/-- Claim C2: on chunkFailure the controller re-sends the chunk at the
unchanged current index and does not terminate, for any current index
(including the final one, `count - 1`) and for any number `n` of
consecutive failures (no retry bound): the actions are `n` sends of
the same index, each transmitting the same bytes (the framed, encoded
chunk at that index), and the state stays `some idx`. -/
theorem claim_C2 (count idx n : Nat) (chunks : List (List Nat)) :
    runFrom count (some idx) (List.replicate n Response.failure) =
      (List.replicate n (Action.send idx), some idx) ∧
    (runFrom count (some idx) (List.replicate n Response.failure)).1.map
        (transmission chunks) =
      List.replicate n (transmission chunks (Action.send idx)) := by
  refine ⟨runFrom_failures count idx n, ?_⟩
  rw [runFrom_failures]
  simp

/-- Claim C3, as amended: for every payload, chunking produces exactly
`⌈L/8⌉` chunks — which is 0 chunks, not 1, for the empty payload —
each chunk is exactly 8 bytes after padding, and concatenating the
chunks (equivalently, the first `L` bytes of the concatenated padded
chunks) reconstructs the payload exactly. -/
theorem claim_C3 (l : List Nat) :
    (inGroupsOf l 8).length = (l.length + 7) / 8 ∧
    (∀ c ∈ inGroupsOf l 8, (appendPadding c).length = 8) ∧
    (inGroupsOf l 8).flatten = l ∧
    (((inGroupsOf l 8).map appendPadding).flatten).take l.length = l := by
  refine ⟨inGroupsOf_length l, ?_, inGroupsOf_flatten l, inGroupsOf_padded_take l⟩
  intro c hc
  exact appendPadding_length c (inGroupsOf_mem_length l c hc).2

/-- Claim C3 counterexample: the claim's "or 1 chunk if L = 0" fails —
chunking the empty payload produces 0 chunks, not 1 (the loop in
`inGroupsOf` never runs). -/
theorem claim_C3_counterexample :
    ¬ (inGroupsOf ([] : List Nat) 8).length = 1 := by
  rw [inGroupsOf_nil]
  simp

/-- Claim C3 witness: a two-byte payload is one chunk, padded to 8. -/
theorem claim_C3_witness :
    [9, 10] ∈ inGroupsOf [9, 10] 8 ∧ (appendPadding [9, 10]).length = 8 := by
  have hval : inGroupsOf [9, 10] 8 = [[9, 10]] := by
    rw [inGroupsOf, if_neg (by simp), List.take_of_length_le (by simp),
      List.drop_eq_nil_of_le (by simp), inGroupsOf_nil]
  have hmem : [9, 10] ∈ inGroupsOf [9, 10] 8 := by
    rw [hval]
    simp
  exact ⟨hmem, (claim_C3 [9, 10]).2.1 [9, 10] hmem⟩

/-- Claim C4: for every padded 8-byte chunk, the checksum equals the
fold starting at 0 taking `acc * 2 + (least significant bit of the
byte)` over the bytes in order; the appended checksum byte is the low
byte of the final accumulator; and the function is deterministic
(equal chunks give equal checksums). -/
theorem claim_C4 (data : List Nat) (h : data.length = 8) :
    checkSum data = data.foldl (fun acc b => acc * 2 + b % 2) 0 ∧
    appendChecksum data = data ++ [checkSum data % 256] ∧
    (∀ d2 : List Nat, d2 = data → checkSum d2 = checkSum data) :=
  ⟨checkSum_eq_fold data, appendChecksum_of_length_eight data h,
    fun _ hd => by rw [hd]⟩

/-- Claim C4 witness: the checksum of the chunk `[1,...,8]`
(least significant bits 1,0,1,0,1,0,1,0 give 0b10101010 = 170). -/
theorem claim_C4_witness :
    ([1, 2, 3, 4, 5, 6, 7, 8] : List Nat).length = 8 ∧
      checkSum [1, 2, 3, 4, 5, 6, 7, 8] =
        ([1, 2, 3, 4, 5, 6, 7, 8] : List Nat).foldl (fun acc b => acc * 2 + b % 2) 0 :=
  ⟨by decide, (claim_C4 [1, 2, 3, 4, 5, 6, 7, 8] (by decide)).1⟩

/-- Claim C5: for every chunk of at most 8 bytes, framing right-pads
with zero bytes exactly when the length is below 8 (an 8-byte chunk
passes unchanged), then appends exactly one checksum byte: the framed
block is exactly 9 bytes and its first 8 bytes are the padded chunk. -/
theorem claim_C5 (chunk : List Nat) (h : chunk.length ≤ 8) :
    (chunk.length < 8 →
      appendPadding chunk = chunk ++ List.replicate (8 - chunk.length) 0) ∧
    (chunk.length = 8 → appendPadding chunk = chunk) ∧
    (appendPadding chunk).length = 8 ∧
    appendChecksum (appendPadding chunk) =
      appendPadding chunk ++ [checkSum (appendPadding chunk) % 256] ∧
    (appendChecksum (appendPadding chunk)).length = 9 ∧
    (appendChecksum (appendPadding chunk)).take 8 = appendPadding chunk := by
  have hp : (appendPadding chunk).length = 8 := appendPadding_length chunk h
  refine ⟨appendPadding_of_lt chunk, appendPadding_of_eq chunk, hp,
    appendChecksum_of_length_eight _ hp, ?_, ?_⟩
  · rw [appendChecksum_of_length_eight _ hp]
    simp [hp]
  · rw [appendChecksum_of_length_eight _ hp,
      List.take_append_of_le_length (by omega), List.take_of_length_le (by omega)]

/-- Claim C5 witness: the two-byte chunk `[9, 10]` frames to 9 bytes. -/
theorem claim_C5_witness :
    ([9, 10] : List Nat).length ≤ 8 ∧
      (appendChecksum (appendPadding [9, 10])).length = 9 :=
  ⟨by decide, (claim_C5 [9, 10] (by decide)).2.2.2.2.1⟩

/-- Claim C6, as amended: for the empty payload, chunking produces no
chunk at all (not one all-zero chunk): `chunks` is empty, `chunks[0]`
does not exist, and the start event's transmission of chunk 0 has no
chunk bytes to send, so no one-chunk session takes place. -/
theorem claim_C6 :
    inGroupsOf ([] : List Nat) 8 = [] ∧
    (inGroupsOf ([] : List Nat) 8)[0]? = none ∧
    transmission (inGroupsOf ([] : List Nat) 8) (Action.send 0) = none := by
  refine ⟨inGroupsOf_nil 8, ?_, ?_⟩
  · rw [inGroupsOf_nil]
    rfl
  · unfold transmission
    rw [inGroupsOf_nil]
    rfl

/-- Claim C6 counterexample: chunking the empty payload does not
produce one all-zero 8-byte chunk. -/
theorem claim_C6_counterexample :
    ¬ inGroupsOf ([] : List Nat) 8 = [List.replicate 8 0] := by
  rw [inGroupsOf_nil]
  simp

/-- Claim C7: every received line is trimmed of surrounding
whitespace; exactly `k` classifies as chunkSuccess, exactly `f` as
chunkFailure, and any other line produces no event; only classified
chunkSuccess/chunkFailure events reach (and hence advance) the
controller — a line classified as neither leaves any run of the
controller unchanged. -/
theorem claim_C7 (line : String) :
    (classify line = some Response.success ↔ trimChars line.data = ['k']) ∧
    (classify line = some Response.failure ↔ trimChars line.data = ['f']) ∧
    (classify line = none ↔
      (trimChars line.data ≠ ['k'] ∧ trimChars line.data ≠ ['f'])) ∧
    (classify line = none →
      ∀ (count : Nat) (s : Option Nat) (before after : List String),
        runFrom count s ((before ++ line :: after).filterMap classify) =
          runFrom count s ((before ++ after).filterMap classify)) := by
  refine ⟨?_, ?_, ?_, ?_⟩
  · unfold classify
    by_cases h1 : trimChars line.data = ['k']
    · simp [h1]
    · by_cases h2 : trimChars line.data = ['f'] <;> simp [h1, h2]
  · unfold classify
    by_cases h1 : trimChars line.data = ['k']
    · simp [h1]
    · by_cases h2 : trimChars line.data = ['f'] <;> simp [h1, h2]
  · unfold classify
    by_cases h1 : trimChars line.data = ['k']
    · simp [h1]
    · by_cases h2 : trimChars line.data = ['f'] <;> simp [h1, h2]
  · intro h count s before after
    rw [List.filterMap_append, List.filterMap_cons, h, List.filterMap_append]

/-- Claim C7 witness: an unrecognized line (a boot banner) classifies
to no event. -/
theorem claim_C7_witness : classify "boot" = none :=
  (claim_C7 "boot").2.2.1.mpr ⟨by decide, by decide⟩

/-- Claim C8: the encoder is deterministic (it is a function) and
reversible: every 9-byte framed block encodes through the fixed base64
alphabet to exactly 12 characters, each a printable single byte
(ASCII 33..126) from the alphabet, and standard base64 decoding of the
text returns exactly the original 9 bytes. -/
theorem claim_C8 (block : List Nat) (hlen : block.length = 9)
    (hbytes : ∀ b ∈ block, b < 256) :
    (base64Encode block).length = 12 ∧
    (∀ c ∈ base64Encode block,
      c ∈ base64Alphabet ∧ 33 ≤ c.toNat ∧ c.toNat ≤ 126) ∧
    base64Decode (base64Encode block) = some block := by
  obtain ⟨b1, b2, b3, b4, b5, b6, b7, b8, b9, rfl⟩ := exists_nine block hlen
  have h1 : b1 < 256 := hbytes b1 (by simp)
  have h2 : b2 < 256 := hbytes b2 (by simp)
  have h3 : b3 < 256 := hbytes b3 (by simp)
  have h4 : b4 < 256 := hbytes b4 (by simp)
  have h5 : b5 < 256 := hbytes b5 (by simp)
  have h6 : b6 < 256 := hbytes b6 (by simp)
  have h7 : b7 < 256 := hbytes b7 (by simp)
  have h8 : b8 < 256 := hbytes b8 (by simp)
  have h9 : b9 < 256 := hbytes b9 (by simp)
  have hprop : ∀ s, s < 64 →
      base64Char s ∈ base64Alphabet ∧ 33 ≤ (base64Char s).toNat ∧
        (base64Char s).toNat ≤ 126 := fun s hs =>
    ⟨base64Char_mem s hs, base64Alphabet_printable _ (base64Char_mem s hs)⟩
  refine ⟨rfl, ?_, ?_⟩
  · intro c hc
    rw [base64Encode_cons, base64Encode_cons, base64Encode_cons] at hc
    rw [show base64Encode [] = [] from rfl] at hc
    simp only [List.mem_cons, List.not_mem_nil, or_false] at hc
    rcases hc with rfl | rfl | rfl | rfl | rfl | rfl | rfl | rfl | rfl | rfl | rfl | rfl <;>
      exact hprop _ (by omega)
  · exact base64Decode_encode_cons b1 b2 b3 h1 h2 h3 _ _
      (base64Decode_encode_cons b4 b5 b6 h4 h5 h6 _ _
        (base64Decode_encode_cons b7 b8 b9 h7 h8 h9 _ _ base64Decode_encode_nil))

/-- Claim C8 witness: the framed block of payload chunk `[1,...,8]`
(checksum 170) decodes back to itself. -/
theorem claim_C8_witness :
    ([1, 2, 3, 4, 5, 6, 7, 8, 170] : List Nat).length = 9 ∧
      base64Decode (base64Encode [1, 2, 3, 4, 5, 6, 7, 8, 170]) =
        some [1, 2, 3, 4, 5, 6, 7, 8, 170] :=
  ⟨by decide, (claim_C8 [1, 2, 3, 4, 5, 6, 7, 8, 170] (by decide) (by decide)).2.2⟩

/-- Claim C9: the transmission index starts at 0 and, over every
sequence of chunkSuccess/chunkFailure events, stays within
`[0, count - 1]`, never decreases, stays put on chunkFailure, and
advances by exactly one on chunkSuccess unless it is already at
`count - 1`. -/
theorem claim_C9 (count : Nat) (h : 1 ≤ count) :
    sessionState count [] = some 0 ∧
    (∀ rs i, sessionState count rs = some i → i ≤ count - 1) ∧
    (∀ rs r i j, sessionState count rs = some i →
      sessionState count (rs ++ [r]) = some j → i ≤ j) ∧
    (∀ rs i, sessionState count rs = some i →
      sessionState count (rs ++ [Response.failure]) = some i) ∧
    (∀ rs i, sessionState count rs = some i → i + 1 < count →
      sessionState count (rs ++ [Response.success]) = some (i + 1)) := by
  refine ⟨sessionState_nil count, ?_, ?_, ?_, ?_⟩
  · intro rs i hi
    have := sessionState_bound count rs 0 (by omega) i hi
    omega
  · intro rs r i j hi hj
    exact sessionState_mono count rs r i j hi hj
  · intro rs i hi
    exact sessionState_snoc_failure count rs i hi
  · intro rs i hi hlt
    exact sessionState_snoc_success_advance count rs i hi hlt

/-- Claim C9 witness: with two chunks, a failure after the initial
state leaves the index at 0. -/
theorem claim_C9_witness :
    1 ≤ 2 ∧ sessionState 2 ([] ++ [Response.failure]) = some 0 :=
  ⟨by decide, (claim_C9 2 (by decide)).2.2.2.1 [] 0 rfl⟩

/-- Claim C10: for every chunk of at most 8 bytes the checksum is in
`[0, 255]` (each byte contributes one bit), so storing it in a single
byte loses nothing: the low-byte truncation `% 256` is the identity. -/
theorem claim_C10 (data : List Nat) (h : data.length ≤ 8) :
    checkSum data ≤ 255 ∧ checkSum data % 256 = checkSum data := by
  have hb : checkSum data < 256 := by
    have hpow : (2 : Nat) ^ data.length ≤ 2 ^ 8 :=
      Nat.pow_le_pow_right (by norm_num) h
    have := checkSum_lt_two_pow data
    omega
  exact ⟨by omega, Nat.mod_eq_of_lt hb⟩

/-- Claim C10 witness: the checksum of the short chunk `[9, 10]`. -/
theorem claim_C10_witness :
    ([9, 10] : List Nat).length ≤ 8 ∧ checkSum [9, 10] % 256 = checkSum [9, 10] :=
  ⟨by decide, (claim_C10 [9, 10] (by decide)).2⟩

end Sender
